import Mathlib

/-!
Verification of the selection-growth core of the `vscode-select-parameters`
extension.  The definitions below are a shallow embedding of the two source
files (`src/extension.ts`, given here as `src/unnamed/part_000`, and the older
variant `src/extension copy.ts`): ranges are pairs of integers, the document
text is a list of characters, syntax nodes are a rose tree carrying the
fields the code reads (`kind`, `getFullStart()`, `getEnd()`, children as
visited by `forEachChild`/`getChildren`).
-/

/-- A selection range, mirroring the source's `interface Range { start: number;
end: number }`.  Offsets are modelled as unbounded integers, matching
JavaScript number arithmetic on the small values involved. -/
structure Range where
  start : Int
  endPos : Int
deriving DecidableEq, Repr

/-- Decision of the JavaScript regular expression `/\s/` on one character:
ASCII whitespace, NEL-free Latin-1 NBSP, and the Unicode space separators,
exactly the set `\s` matches. -/
def wsChar (c : Char) : Bool :=
  c = ' ' || c = '\t' || c = '\n' || (c.val = 11) || (c.val = 12) || c = '\r' ||
  (c.val = 0xa0) || (c.val = 0x1680) ||
  (0x2000 ≤ c.val && c.val ≤ 0x200a) ||
  (c.val = 0x2028) || (c.val = 0x2029) || (c.val = 0x202f) ||
  (c.val = 0x205f) || (c.val = 0x3000) || (c.val = 0xfeff)

/-- Number of consecutive whitespace characters at the head of a list;
the loop body shared by both scans of `collapseWhitespace`. -/
def countLeadingWS : List Char → Nat
  | [] => 0
  | c :: rest => if wsChar c then countLeadingWS rest + 1 else 0

/-- The forward loop of `collapseWhitespace`: `leftRemove`, the number of
whitespace characters consumed scanning up from offset `s`.  The loop stops
at the end of the text; for a negative `s`, `charAt` yields the empty
string, `/\s/` fails and the count is `0`, which the guard reproduces. -/
def leftScan (source : List Char) (s : Int) : Nat :=
  if s < 0 then 0
  else countLeadingWS (source.drop s.toNat)

/-- The backward loop of `collapseWhitespace`: `rightRemove`, the number of
whitespace characters consumed scanning down from offset `e - 1`.  The loop
stops below offset 0; for `e - 1` at or beyond the text length, `charAt`
yields the empty string, `/\s/` fails and the count is `0`.  Scanning down
from `e - 1` is counting the trailing whitespace of the prefix of length
`e`, i.e. the leading whitespace of that prefix reversed. -/
def rightScan (source : List Char) (e : Int) : Nat :=
  if e - 1 < 0 ∨ (source.length : Int) ≤ e - 1 then 0
  else countLeadingWS ((source.take ((e - 1).toNat + 1)).reverse)

/-- Embedding of `collapseWhitespace(source, range)`: the two independent
whitespace scans applied to the two boundaries, exactly as in the source
(`{ start: range.start + leftRemove, end: range.end - rightRemove }`). -/
def collapseWhitespace (source : List Char) (r : Range) : Range :=
  ⟨r.start + leftScan source r.start, r.endPos - rightScan source r.endPos⟩

/-- The syntax-node kinds the source code distinguishes, a faithful
abstraction of the parser's numeric kind enum; `other` covers every kind the
code treats uniformly. -/
inductive SKind where
  | jsxSelfClosingElement
  | jsxOpeningElement
  | jsxElement
  | jsxAttributes
  | jsxAttribute
  | templateHead
  | templateTail
  | templateMiddle
  | templateSpan
  | other (tag : Nat)
deriving DecidableEq, Repr

mutual
/-- A parser syntax node: `kind`, `getFullStart()`, `getEnd()` and the
ordered children (the nodes visited by `forEachChild` / `getChildren`). -/
inductive SNode where
  | mk (kind : SKind) (fullStart : Int) (endPos : Int) (children : SForest)
/-- Sibling lists, as a separate inductive so every recursive function over
the tree is structurally recursive and kernel-evaluable. -/
inductive SForest where
  | nil
  | cons (hd : SNode) (tl : SForest)
end

def SNode.kind : SNode → SKind
  | .mk k _ _ _ => k

def SNode.fullStart : SNode → Int
  | .mk _ s _ _ => s

def SNode.endPos : SNode → Int
  | .mk _ _ e _ => e

def SNode.children : SNode → SForest
  | .mk _ _ _ c => c

def SForest.headOpt : SForest → Option SNode
  | .nil => none
  | .cons c _ => some c

def SForest.toList : SForest → List SNode
  | .nil => []
  | .cons c tl => c :: tl.toList

mutual
/-- Embeds `pathToPositionInternal(node, start, end, path)`: unless
`start >= node.getFullStart() && end <= node.getEnd()` the whole subtree is
pruned; otherwise the node is pushed and each child visited in order. -/
def pathToPositionInternal (node : SNode) (start endPos : Int) (path : List SNode) :
    List SNode :=
  match node with
  | .mk k fs ep cs =>
    if start < fs ∨ endPos > ep then path
    else pathForEachChild cs start endPos (path ++ [SNode.mk k fs ep cs])
/-- The `node.forEachChild(child => pathToPositionInternal(...))` loop. -/
def pathForEachChild (children : SForest) (start endPos : Int) (path : List SNode) :
    List SNode :=
  match children with
  | .nil => path
  | .cons c tl => pathForEachChild tl start endPos (pathToPositionInternal c start endPos path)
end

/-- Embeds `getPathOfNodesInRange(node, start, end)`: run the recursion on an empty
accumulator. -/
def getPathOfNodesInRange (node : SNode) (start endPos : Int) : List SNode :=
  pathToPositionInternal node start endPos []

mutual
/-- Modelled from the spec (section 4.2 / claim C7, for comparison with the
code): a node is listed, and its children examined, exactly when
`start >= fullStart` and `end <= end(node)`; a node failing the test
contributes nothing, pruning its entire subtree. -/
def specPath (node : SNode) (start endPos : Int) : List SNode :=
  match node with
  | .mk k fs ep cs =>
    if start ≥ fs ∧ endPos ≤ ep then SNode.mk k fs ep cs :: specPathForest cs start endPos
    else []
def specPathForest (children : SForest) (start endPos : Int) : List SNode :=
  match children with
  | .nil => []
  | .cons c tl => specPath c start endPos ++ specPathForest tl start endPos
end

mutual
/-- The node together with all of its descendants. -/
def SNode.allNodes : SNode → List SNode
  | .mk k fs ep cs => SNode.mk k fs ep cs :: SForest.allNodes cs
def SForest.allNodes : SForest → List SNode
  | .nil => []
  | .cons c tl => SNode.allNodes c ++ SForest.allNodes tl
end

/-- Embeds `nodeToRange(node)` as in the active source file: the template-literal
boundary adjustments are commented out there, so `ds = de = 0` and every
node maps to `{ start: getFullStart(), end: getEnd() }`. -/
def nodeToRange (node : SNode) : Range :=
  let ds : Int := 0
  let de : Int := 0
  ⟨node.fullStart + ds, node.endPos + de⟩

/-- Embeds `node.literal` of a template span: its last child (the span's children
are the hole expression followed by the literal fragment).  The fallback is
never reached on well-formed spans. -/
def SNode.literalNode (node : SNode) : SNode :=
  match node.children.toList.getLast? with
  | some l => l
  | none => SNode.mk (.other 0) 0 0 .nil

/-- Embeds `node.getFullWidth()`: `getEnd() - getFullStart()`. -/
def SNode.fullWidth (node : SNode) : Int :=
  node.endPos - node.fullStart

/-- Embeds `nodeToRange(node)` as in the earlier variant (`extension copy.ts`),
where the template-literal boundary corrections are live.  The source
assigns `ds`/`de` through four successive `if` statements on the node kind;
the kinds are mutually exclusive, so the nested conditional below computes
the same pair. -/
def nodeToRangeCopy (node : SNode) : Range :=
  let dsde : Int × Int :=
    if node.kind = SKind.templateHead then (2, -2)
    else if node.kind = SKind.templateTail then (1, -1)
    else if node.kind = SKind.templateMiddle then (1, -2)
    else if node.kind = SKind.templateSpan then (-2, -node.literalNode.fullWidth + 1)
    else (0, 0)
  ⟨node.fullStart + dsde.1, node.endPos + dsde.2⟩

/-- Modelled from the spec (section 4.3): the per-kind boundary-adjustment
table — head, tail, middle and interpolation-span template fragments have
their delimiters trimmed (the span using the width of its literal
sub-node); every other kind maps to `{fullStart, end}` unadjusted. -/
def nodeToRangeTable (node : SNode) : Range :=
  match node.kind with
  | .templateHead => ⟨node.fullStart + 2, node.endPos - 2⟩
  | .templateTail => ⟨node.fullStart + 1, node.endPos - 1⟩
  | .templateMiddle => ⟨node.fullStart + 1, node.endPos - 2⟩
  | .templateSpan => ⟨node.fullStart - 2, node.endPos - node.literalNode.fullWidth + 1⟩
  | _ => ⟨node.fullStart, node.endPos⟩

/-- The acceptance test of `rangeToNode`: the collapsed candidate range must
strictly extend the input on one side while not retracting on the other. -/
def accepts (outRange range : Range) : Bool :=
  (decide (outRange.start < range.start) && decide (outRange.endPos ≥ range.endPos)) ||
  (decide (outRange.endPos > range.endPos) && decide (outRange.start ≤ range.start))

/-- Embeds `rangeToNode(editor, range)`: walk the containment path from deepest to
shallowest (`for (let i = path.length - 1; i >= 0; i--)`, i.e. `find?` over
the reversed path) and return the first node whose whitespace-collapsed
range passes the acceptance test. -/
def rangeToNode (tree : SNode) (text : List Char) (range : Range) : Option SNode :=
  ((getPathOfNodesInRange tree range.start range.endPos).reverse).find?
    (fun node => accepts (collapseWhitespace text (nodeToRange node)) range)

/-- Embeds `growRange(editor, range)`: `rangeToNode`, then the collapsed range of
the found node — recomputing exactly the expression the acceptance test
evaluated. -/
def growRange (tree : SNode) (text : List Char) (range : Range) : Option Range :=
  match rangeToNode tree text range with
  | none => none
  | some node => some (collapseWhitespace text (nodeToRange node))

/-- The three node kinds `rangeIsJsxElement` accepts. -/
def isJsxElementKind (k : SKind) : Bool :=
  k = SKind.jsxSelfClosingElement || k = SKind.jsxOpeningElement || k = SKind.jsxElement

/-- Embeds `rangeIsJsxElement(editor, range)`: the source returns `undefined` when
`rangeToNode` finds nothing, and the only caller uses the result in boolean
position, so that case is embedded as `false`. -/
def rangeIsJsxElement (tree : SNode) (text : List Char) (range : Range) : Bool :=
  match rangeToNode tree text range with
  | none => false
  | some node => isJsxElementKind node.kind

/-- The `while (!rangeIsJsxElement(...))` loop of `growUntilJsxElement`,
with `fuel = rLimit - r` recursions still permitted: the body applies
`growRange` once, returns `none` when it failed, and returns `none` (after
the `console.error` diagnostic) when the incremented counter exceeds
`rLimit`, i.e. exactly when the fuel is exhausted. -/
def growUntilAux (tree : SNode) (text : List Char) : Nat → Range → Option Range
  | fuel, range =>
    if rangeIsJsxElement tree text range then some range
    else
      match growRange tree text range with
      | none => none
      | some grown =>
        match fuel with
        | 0 => none
        | fuel' + 1 => growUntilAux tree text fuel' grown

/-- Embeds `growUntilJsxElement(editor, range)` with its configured `rLimit = 100`. -/
def growUntilJsxElement (tree : SNode) (text : List Char) (range : Range) : Option Range :=
  growUntilAux tree text 100 range

/-- Instrumentation for the same loop: the number of `growRange`
applications it performs (each executed loop body is one application,
including a final one whose result the `undefined` check or the counter
check then discards). -/
def growUntilCount (tree : SNode) (text : List Char) : Nat → Range → Nat
  | fuel, range =>
    if rangeIsJsxElement tree text range then 0
    else
      match growRange tree text range with
      | none => 1
      | some grown =>
        match fuel with
        | 0 => 1
        | fuel' + 1 => 1 + growUntilCount tree text fuel' grown

/-- No node of the tree has a JSX-element kind, so the predicate of
`growUntilJsxElement` is false on every range. -/
def noJsxKinds (tree : SNode) : Bool :=
  tree.allNodes.all (fun n => !(isJsxElementKind n.kind))

/-- A nesting chain of `k + 1` non-JSX nodes with spans
`[0,1] ⊂ [0,2] ⊂ ... ⊂ [0,k+1]`: on the empty text, every `growRange` step
from `⟨0, j⟩` yields `⟨0, j+1⟩`, so growth can be iterated `k` times. -/
def chainTree : Nat → SNode
  | 0 => .mk (.other 0) 0 1 .nil
  | k + 1 => .mk (.other 0) 0 ((k : Int) + 2) (.cons (chainTree k) .nil)

/-- The `jsxAttributesNode.forEachChild` loop of `findParams`, over the
container's child list: a child whose kind is not `JsxAttribute` is skipped
(early `return` in the callback); for an attribute child the code
destructures the first element of `getChildren()` and unconditionally calls
`nodeToRange` on it — for an attribute with no children that call throws
(`undefined.getFullStart()`), aborting the whole extraction, embedded here
as `none`.  Otherwise the collapsed range of the attribute's first child
(its name node) is appended. -/
def extractAttrNameRanges (text : List Char) (children : List SNode) (acc : List Range) :
    Option (List Range) :=
  match children with
  | [] => some acc
  | attrNode :: tl =>
    if attrNode.kind ≠ SKind.jsxAttribute then extractAttrNameRanges text tl acc
    else
      match attrNode.children.headOpt with
      | none => none
      | some identNode =>
        extractAttrNameRanges text tl (acc ++ [collapseWhitespace text (nodeToRange identNode)])

/-- Modelled from the spec (section 4.5 / claim C5, for comparison with the
code): one collapsed interval per attribute child that has a first child,
in order; an attribute child without a first child is skipped defensively
and the remaining attributes still contribute. -/
def specAttrNameRanges (text : List Char) (children : List SNode) : List Range :=
  match children with
  | [] => []
  | attrNode :: tl =>
    if attrNode.kind ≠ SKind.jsxAttribute then specAttrNameRanges text tl
    else
      match attrNode.children.headOpt with
      | none => specAttrNameRanges text tl
      | some identNode =>
        collapseWhitespace text (nodeToRange identNode) :: specAttrNameRanges text tl

/-- Some child of the attribute container is an attribute with no children
(the case the spec says is skipped and the code throws on). -/
def hasChildlessAttr (children : List SNode) : Bool :=
  children.any (fun c => c.kind = SKind.jsxAttribute && c.children.headOpt.isNone)

/-- A well-formed attribute node: kind `JsxAttribute` spanning `[0,3]`, with
the name node as first child. -/
def exAttrGood : SNode :=
  .mk .jsxAttribute 0 3 (.cons (.mk (.other 1) 0 3 .nil) .nil)

/-- A malformed attribute node: kind `JsxAttribute` with no children. -/
def exAttrBad : SNode :=
  .mk .jsxAttribute 3 5 .nil

/-- A host selection: anchor and active offsets (a `vscode.Selection`
flattened to document offsets). -/
structure Sel where
  anchor : Int
  active : Int
deriving DecidableEq, Repr

/-- Embeds `Selection.isEqual`, which is inherited range equality: it compares the ordered
endpoints `start`/`end`, not the anchor/active direction. -/
def selIsEqual (a b : Sel) : Bool :=
  decide (min a.anchor a.active = min b.anchor b.active) &&
  decide (max a.anchor a.active = max b.anchor b.active)

/-- Embeds `areSelectionsEqual(selections, otherSelections)`: equal length and
pairwise `isEqual` at each index. -/
def areSelectionsEqual (xs ys : List Sel) : Bool :=
  decide (xs.length = ys.length) && (xs.zip ys).all (fun p => selIsEqual p.1 p.2)

/-- The state of one `VerySmartSelect` instance together with the host's
current selection set: the history stack is a JavaScript array pushed and
popped at its end, and `didUpdateSelections` is the one-shot re-entrancy
flag around the engine's own applies. -/
structure EngineState where
  current : List Sel
  selectionsHistory : List (List Sel)
  didUpdateSelections : Bool
deriving DecidableEq, Repr

namespace VerySmartSelect

/-- Embeds `updateSelections(selections)`: with an active editor and a nonempty
set, set the one-shot flag and apply the selections. -/
def updateSelections (st : EngineState) (sels : List Sel) : EngineState :=
  if sels.length > 0 then
    { st with didUpdateSelections := true, current := sels }
  else st

/-- Embeds `updateSelectionsHistory(selections)`: push a copy of the set unless it
equals the top of the stack. -/
def updateSelectionsHistory (st : EngineState) (sels : List Sel) : EngineState :=
  match st.selectionsHistory.getLast? with
  | none => { st with selectionsHistory := st.selectionsHistory ++ [sels] }
  | some lastSelections =>
    if areSelectionsEqual lastSelections sels then st
    else { st with selectionsHistory := st.selectionsHistory ++ [sels] }

/-- The selections built from computed `paramRanges`:
`new vscode.Selection(positionAt(range.start), positionAt(range.end))`, a
forward selection per range. -/
def selsOfRanges (paramRanges : List Range) : List Sel :=
  paramRanges.map (fun r => ⟨r.start, r.endPos⟩)

/-- One `grow()` call, abstracted over the `paramRanges` the growth engine
computed from the current document state: an empty result returns without
touching anything; otherwise the pre-grow selections are recorded and the
new ones applied. -/
def grow (st : EngineState) (paramRanges : List Range) : EngineState :=
  if paramRanges.isEmpty then st
  else
    updateSelections (updateSelectionsHistory st st.current) (selsOfRanges paramRanges)

/-- One `shrink()` call: pop the history stack and apply the popped set
(second component `some set`), or defer to the host-native shrink on an
empty stack (second component `none`). -/
def shrink (st : EngineState) : EngineState × Option (List Sel) :=
  match st.selectionsHistory.getLast? with
  | none => (st, none)
  | some sels =>
    (updateSelections { st with selectionsHistory := st.selectionsHistory.dropLast } sels,
      some sels)

/-- The `onDidChangeTextEditorSelection` listener: an event observed with
the one-shot flag set (the engine's own apply) only clears the flag; any
other event is externally originated and clears the entire history stack. -/
def selectionListener (st : EngineState) : EngineState :=
  if st.didUpdateSelections then { st with didUpdateSelections := false }
  else { st with selectionsHistory := [] }

/-- A sequence of `grow()` calls with the given computed results. -/
def growMany (st : EngineState) (outs : List (List Range)) : EngineState :=
  outs.foldl grow st

/-- Runs `n` successive `shrink()` calls: the final state, and per call the
reapplied set (`some`) or the host-native deferral (`none`). -/
def shrinkMany (st : EngineState) : Nat → EngineState × List (Option (List Sel))
  | 0 => (st, [])
  | n + 1 =>
    let step := shrink st
    let rest := shrinkMany step.1 n
    (rest.1, step.2 :: rest.2)

end VerySmartSelect

/-- Consecutive selection sets all differ, per `areSelectionsEqual`. -/
def chainDistinct : List (List Sel) → Bool
  | [] => true
  | [_] => true
  | a :: b :: rest => !areSelectionsEqual a b && chainDistinct (b :: rest)

theorem countLeadingWS_le_length (l : List Char) : countLeadingWS l ≤ l.length := by
  induction l with
  | nil => simp [countLeadingWS]
  | cons c rest ih =>
    simp only [countLeadingWS, List.length_cons]
    split <;> omega

theorem countLeadingWS_drop_self (l : List Char) :
    countLeadingWS (l.drop (countLeadingWS l)) = 0 := by
  induction l with
  | nil => simp [countLeadingWS]
  | cons c rest ih =>
    simp only [countLeadingWS]
    split
    · simpa using ih
    · simp [countLeadingWS, *]

theorem countLeadingWS_le_of_not_ws (l : List Char) (m : Nat)
    (h : wsChar (l.getD m ' ') = false) : countLeadingWS l ≤ m := by
  induction l generalizing m with
  | nil => simp [countLeadingWS]
  | cons c rest ih =>
    cases m with
    | zero =>
      simp only [List.getD_cons_zero] at h
      simp [countLeadingWS, h]
    | succ m' =>
      simp only [countLeadingWS]
      split
      · have := ih m' (by simpa using h)
        omega
      · omega

theorem getD_drop (l : List Char) (n m : Nat) :
    (l.drop n).getD m ' ' = l.getD (n + m) ' ' := by
  induction l generalizing n with
  | nil => simp
  | cons c rest ih =>
    cases n with
    | zero => simp
    | succ n' => simp [Nat.succ_add, ih n']

theorem getD_reverse (l : List Char) (i : Nat) (h : i < l.length) :
    l.reverse.getD i ' ' = l.getD (l.length - 1 - i) ' ' := by
  have h' : i < l.reverse.length := by simpa using h
  rw [List.getD_eq_getElem _ _ h', List.getElem_reverse,
    List.getD_eq_getElem _ _ (by omega)]

theorem getD_take (l : List Char) (n i : Nat) (h : i < n) (h2 : i < l.length) :
    (l.take n).getD i ' ' = l.getD i ' ' := by
  have hi : i < (l.take n).length := by
    simp only [List.length_take]
    omega
  rw [List.getD_eq_getElem _ _ hi, List.getElem_take, List.getD_eq_getElem _ _ h2]

theorem leftScan_fix (source : List Char) (s : Int) :
    leftScan source (s + leftScan source s) = 0 := by
  by_cases hs : s < 0
  · simp [leftScan, hs]
  · have h1 : leftScan source s = countLeadingWS (source.drop s.toNat) := by
      rw [leftScan, if_neg hs]
    rw [h1, leftScan, if_neg (by omega)]
    have ht : (s + (countLeadingWS (source.drop s.toNat) : Int)).toNat
        = s.toNat + countLeadingWS (source.drop s.toNat) := by omega
    rw [ht, ← List.drop_drop, countLeadingWS_drop_self]

theorem rightScan_fix (source : List Char) (e : Int) :
    rightScan source (e - rightScan source e) = 0 := by
  by_cases hc : e - 1 < 0 ∨ (source.length : Int) ≤ e - 1
  · have h1 : rightScan source e = 0 := by rw [rightScan, if_pos hc]
    rw [h1]
    simp only [Nat.cast_zero, sub_zero]
    exact h1
  · have h1 : rightScan source e
        = countLeadingWS ((source.take ((e - 1).toNat + 1)).reverse) := by
      rw [rightScan, if_neg hc]
    push_neg at hc
    obtain ⟨hc0, hc1⟩ := hc
    have hLlen : ((source.take ((e - 1).toNat + 1)).reverse).length
        = (e - 1).toNat + 1 := by
      rw [List.length_reverse, List.length_take]
      omega
    have hle : countLeadingWS ((source.take ((e - 1).toNat + 1)).reverse)
        ≤ (e - 1).toNat + 1 := by
      have := countLeadingWS_le_length ((source.take ((e - 1).toNat + 1)).reverse)
      omega
    rw [h1]
    by_cases hall : countLeadingWS ((source.take ((e - 1).toNat + 1)).reverse)
        = (e - 1).toNat + 1
    · rw [rightScan, if_pos]
      left
      omega
    · rw [rightScan, if_neg (by omega)]
      have hidx : (e - (countLeadingWS ((source.take ((e - 1).toNat + 1)).reverse) : Int)
            - 1).toNat + 1
          = (e - 1).toNat + 1
            - countLeadingWS ((source.take ((e - 1).toNat + 1)).reverse) := by
        omega
      rw [hidx]
      have htk : source.take ((e - 1).toNat + 1
            - countLeadingWS ((source.take ((e - 1).toNat + 1)).reverse))
          = (source.take ((e - 1).toNat + 1)).take ((e - 1).toNat + 1
            - countLeadingWS ((source.take ((e - 1).toNat + 1)).reverse)) := by
        rw [List.take_take]
        congr 1
        omega
      rw [htk, List.reverse_take]
      have hlen2 : (source.take ((e - 1).toNat + 1)).length = (e - 1).toNat + 1 := by
        rw [List.length_take]
        omega
      rw [hlen2]
      have hdrop : (e - 1).toNat + 1 - ((e - 1).toNat + 1
            - countLeadingWS ((source.take ((e - 1).toNat + 1)).reverse))
          = countLeadingWS ((source.take ((e - 1).toNat + 1)).reverse) := by
        omega
      rw [hdrop, countLeadingWS_drop_self]

/-- C9: `collapseWhitespace` is idempotent: for every source text and every
interval `x`, `collapseWhitespace (collapseWhitespace x) = collapseWhitespace x`.
Each scan stops either outside the text or on a non-whitespace character, so
a second application removes nothing from either boundary. -/
theorem c9_collapseWhitespace_idempotent (source : List Char) (r : Range) :
    collapseWhitespace source (collapseWhitespace source r) = collapseWhitespace source r := by
  simp [collapseWhitespace, leftScan_fix, rightScan_fix]

/-- C2 counterexample: on the one-character whitespace text `" "`, the
interval `⟨0, 1⟩` satisfies the Interval invariant `0 ≤ start ≤ end ≤ length`,
yet `collapseWhitespace` returns `⟨1, 0⟩`: the forward scan moved `start` to 1
and the independent backward scan moved `end` to 0, crossing `start` past
`end`.  This refutes the claim that the scans never cross. -/
theorem c2_counterexample :
    (0 : Int) ≤ 0 ∧ (0 : Int) ≤ 1 ∧ (1 : Int) ≤ (([' '] : List Char).length : Int) ∧
    collapseWhitespace [' '] ⟨0, 1⟩ = ⟨1, 0⟩ ∧
    (collapseWhitespace [' '] ⟨0, 1⟩).endPos < (collapseWhitespace [' '] ⟨0, 1⟩).start := by
  decide

/-- C2 amended: for an interval `0 ≤ start ≤ end ≤ length source` that
contains at least one non-whitespace character, `collapseWhitespace`
preserves `start ≤ end` (the scans cannot cross, since the forward scan
stops at or before that character and the backward scan stops at or after
it).  On intervals whose content is entirely whitespace the scans can
cross (see the counterexample), so this hypothesis cannot be dropped. -/
theorem c2_amended_no_cross (source : List Char) (r : Range)
    (h0 : 0 ≤ r.start) (h2 : r.endPos ≤ (source.length : Int))
    (hk : ∃ k : Nat, r.start ≤ (k : Int) ∧ (k : Int) < r.endPos ∧
      wsChar (source.getD k ' ') = false) :
    (collapseWhitespace source r).start ≤ (collapseWhitespace source r).endPos := by
  obtain ⟨k, hks, hke, hkw⟩ := hk
  have hklen : k < source.length := by omega
  simp only [collapseWhitespace]
  have hstart : r.start + (leftScan source r.start : Int) ≤ (k : Int) := by
    rw [leftScan, if_neg (by omega)]
    have hdropD : (source.drop r.start.toNat).getD (k - r.start.toNat) ' '
        = source.getD k ' ' := by
      rw [getD_drop]
      congr 1
      omega
    have := countLeadingWS_le_of_not_ws (source.drop r.start.toNat) (k - r.start.toNat)
      (by rw [hdropD]; exact hkw)
    omega
  have hend : (k : Int) + 1 ≤ r.endPos - (rightScan source r.endPos : Int) := by
    rw [rightScan, if_neg (by omega)]
    set j := (r.endPos - 1).toNat with hj
    have hjk : k ≤ j := by omega
    have hjlen : j < source.length := by omega
    have hrevD : ((source.take (j + 1)).reverse).getD (j - k) ' '
        = source.getD k ' ' := by
      rw [getD_reverse _ _ (by simp only [List.length_take]; omega)]
      have hlen : (source.take (j + 1)).length = j + 1 := by
        simp only [List.length_take]
        omega
      rw [hlen]
      have : j + 1 - 1 - (j - k) = k := by omega
      rw [this, getD_take _ _ _ (by omega) hklen]
    have := countLeadingWS_le_of_not_ws ((source.take (j + 1)).reverse) (j - k)
      (by rw [hrevD]; exact hkw)
    omega
  omega

/-- C2 amended, witness: on the text `"a"` the valid interval `⟨0, 1⟩`
contains the non-whitespace character at offset 0, and the collapsed
interval indeed satisfies `start ≤ end`. -/
theorem c2_amended_no_cross_witness :
    (collapseWhitespace ['a'] ⟨0, 1⟩).start ≤ (collapseWhitespace ['a'] ⟨0, 1⟩).endPos :=
  c2_amended_no_cross ['a'] ⟨0, 1⟩ (by decide) (by decide)
    ⟨0, by decide, by decide, by decide⟩

mutual
theorem pathToPositionInternal_eq_spec (node : SNode) (s e : Int) (path : List SNode) :
    pathToPositionInternal node s e path = path ++ specPath node s e := by
  match node with
  | .mk k fs ep cs =>
    by_cases h : s < fs ∨ e > ep
    · rw [pathToPositionInternal, if_pos h, specPath, if_neg (by omega), List.append_nil]
    · rw [pathToPositionInternal, if_neg h, specPath, if_pos (by omega),
        pathForEachChild_eq_spec, List.append_assoc]
      rfl
theorem pathForEachChild_eq_spec (cs : SForest) (s e : Int) (path : List SNode) :
    pathForEachChild cs s e path = path ++ specPathForest cs s e := by
  match cs with
  | .nil => rw [pathForEachChild, specPathForest, List.append_nil]
  | .cons c tl =>
    rw [pathForEachChild, pathToPositionInternal_eq_spec, pathForEachChild_eq_spec,
      specPathForest, List.append_assoc]
end

theorem getPath_eq_spec (root : SNode) (s e : Int) :
    getPathOfNodesInRange root s e = specPath root s e := by
  rw [getPathOfNodesInRange, pathToPositionInternal_eq_spec, List.nil_append]

/-- C7: path resolution equals its specification: a node is listed, and its
children examined, exactly when `start ≥ fullStart ∧ end ≤ end(node)`; a
node failing the containment test contributes nothing, so no descendant of
a non-containing node appears; the order is shallow-to-deep (preorder).
The statement quantifies over all intervals, including empty ones
(`start = end`, a cursor). -/
theorem c7_path_resolution (root : SNode) (start endPos : Int) :
    getPathOfNodesInRange root start endPos = specPath root start endPos :=
  getPath_eq_spec root start endPos

mutual
theorem mem_specPath_allNodes (node : SNode) (s e : Int) (x : SNode)
    (hx : x ∈ specPath node s e) : x ∈ SNode.allNodes node := by
  match node with
  | .mk k fs ep cs =>
    rw [specPath] at hx
    rw [SNode.allNodes]
    by_cases h : s ≥ fs ∧ e ≤ ep
    · rw [if_pos h] at hx
      rcases List.mem_cons.mp hx with h1 | h2
      · exact List.mem_cons.mpr (Or.inl h1)
      · exact List.mem_cons.mpr (Or.inr (mem_specPathForest_allNodes cs s e x h2))
    · rw [if_neg h] at hx
      cases hx
theorem mem_specPathForest_allNodes (cs : SForest) (s e : Int) (x : SNode)
    (hx : x ∈ specPathForest cs s e) : x ∈ SForest.allNodes cs := by
  match cs with
  | .nil =>
    rw [specPathForest] at hx
    cases hx
  | .cons c tl =>
    rw [specPathForest] at hx
    rw [SForest.allNodes]
    rcases List.mem_append.mp hx with h1 | h2
    · exact List.mem_append.mpr (Or.inl (mem_specPath_allNodes c s e x h1))
    · exact List.mem_append.mpr (Or.inr (mem_specPathForest_allNodes tl s e x h2))
end

theorem rangeToNode_mem (tree : SNode) (text : List Char) (range : Range) (node : SNode)
    (h : rangeToNode tree text range = some node) : node ∈ SNode.allNodes tree := by
  unfold rangeToNode at h
  have hmem := List.mem_of_find?_eq_some h
  rw [List.mem_reverse, getPath_eq_spec] at hmem
  exact mem_specPath_allNodes tree range.start range.endPos node hmem

theorem rangeIsJsxElement_false_of_noJsx (tree : SNode) (text : List Char) (range : Range)
    (h : noJsxKinds tree = true) : rangeIsJsxElement tree text range = false := by
  cases hr : rangeToNode tree text range with
  | none => simp [rangeIsJsxElement, hr]
  | some n =>
    have hm := rangeToNode_mem tree text range n hr
    rw [noJsxKinds, List.all_eq_true] at h
    have hn := h n hm
    simp only [Bool.not_eq_true'] at hn
    simp [rangeIsJsxElement, hr, hn]

theorem growUntilAux_none_of_noJsx (tree : SNode) (text : List Char)
    (h : noJsxKinds tree = true) (fuel : Nat) :
    ∀ range, growUntilAux tree text fuel range = none := by
  induction fuel with
  | zero =>
    intro range
    have hfalse := rangeIsJsxElement_false_of_noJsx tree text range h
    cases hg : growRange tree text range <;> simp [growUntilAux, hfalse, hg]
  | succ n ih =>
    intro range
    have hfalse := rangeIsJsxElement_false_of_noJsx tree text range h
    cases hg : growRange tree text range <;> simp [growUntilAux, hfalse, hg, ih]

theorem growUntilCount_le (tree : SNode) (text : List Char) (fuel : Nat) :
    ∀ range, growUntilCount tree text fuel range ≤ fuel + 1 := by
  induction fuel with
  | zero =>
    intro range
    by_cases hp : rangeIsJsxElement tree text range = true
    · simp [growUntilCount, hp]
    · cases hg : growRange tree text range <;> simp [growUntilCount, hp, hg]
  | succ n ih =>
    intro range
    rw [growUntilCount]
    by_cases hp : rangeIsJsxElement tree text range = true
    · rw [if_pos hp]
      omega
    · rw [if_neg hp]
      cases hg : growRange tree text range with
      | none =>
        simp only [hg]
        omega
      | some g =>
        simp only [hg]
        show 1 + growUntilCount tree text n g ≤ n + 1 + 1
        have := ih g
        omega

set_option maxRecDepth 10000 in
/-- C4 counterexample: on the 102-node nesting chain (no JSX kinds anywhere,
so the predicate is always false) starting from the cursor interval
`⟨0, 0⟩`, the loop of `growUntilJsxElement` performs 101 applications of
`growRange` — one more than the configured `rLimit = 100` — because the
counter is incremented and tested only after each application.  The claim's
bound of at most 100 applications is therefore false, although the loop
does return `none`. -/
theorem c4_counterexample :
    growUntilCount (chainTree 101) [] 100 ⟨0, 0⟩ = 101 ∧
    ¬ growUntilCount (chainTree 101) [] 100 ⟨0, 0⟩ ≤ 100 ∧
    noJsxKinds (chainTree 101) = true ∧
    growUntilJsxElement (chainTree 101) [] ⟨0, 0⟩ = none := by
  have h : growUntilCount (chainTree 101) [] 100 ⟨0, 0⟩ = 101 := by decide
  have hj : growUntilJsxElement (chainTree 101) [] ⟨0, 0⟩ = none := by decide
  have hn : noJsxKinds (chainTree 101) = true := by decide
  exact ⟨h, by omega, hn, hj⟩

/-- C4 amended: the loop of `growUntilJsxElement` performs at most
`rLimit + 1 = 101` applications of `growRange` (not 100: the counter check
fires only after the 101st application), and on a tree with no JSX-element
kinds — i.e. with an always-false predicate — it returns `none` within that
bound. -/
theorem c4_amended_step_bound (tree : SNode) (text : List Char) (range : Range) :
    growUntilCount tree text 100 range ≤ 101 ∧
    (noJsxKinds tree = true → growUntilJsxElement tree text range = none) :=
  ⟨growUntilCount_le tree text 100 range,
    fun h => growUntilAux_none_of_noJsx tree text h 100 range⟩

/-- C4 amended, witness: the single-node non-JSX tree. -/
theorem c4_amended_step_bound_witness :
    growUntilCount (chainTree 0) [] 100 ⟨0, 0⟩ ≤ 101 ∧
    growUntilJsxElement (chainTree 0) [] ⟨0, 0⟩ = none :=
  ⟨(c4_amended_step_bound (chainTree 0) [] ⟨0, 0⟩).1,
    (c4_amended_step_bound (chainTree 0) [] ⟨0, 0⟩).2 (by decide)⟩

/-- C10: the loop of `growUntilJsxElement` tests its predicate before any
growth step: an input interval that already resolves (via the innermost
accepted ancestor) to a JSX element node is returned unchanged, with zero
applications of `growRange`. -/
theorem c10_predicate_tested_first (tree : SNode) (text : List Char) (range : Range)
    (h : rangeIsJsxElement tree text range = true) :
    growUntilJsxElement tree text range = some range ∧
    growUntilCount tree text 100 range = 0 := by
  constructor
  · rw [growUntilJsxElement, growUntilAux, if_pos h]
  · rw [growUntilCount, if_pos h]

/-- C10 witness: a single self-closing JSX element node over the text
`"ab"`, whose collapsed range `⟨0, 2⟩` strictly extends the input `⟨0, 1⟩`,
so the input already resolves to a JSX element. -/
theorem c10_predicate_tested_first_witness :
    growUntilJsxElement (SNode.mk .jsxSelfClosingElement 0 2 .nil) ['a', 'b'] ⟨0, 1⟩
      = some ⟨0, 1⟩ ∧
    growUntilCount (SNode.mk .jsxSelfClosingElement 0 2 .nil) ['a', 'b'] 100 ⟨0, 1⟩ = 0 :=
  c10_predicate_tested_first _ _ _ (by decide)

/-- C1: whenever one growth step succeeds, `growRange(range) = some grown`,
the output interval is a superset of the input (`grown.start ≤ range.start`
and `range.end ≤ grown.end`) and strictly larger on at least one boundary —
the accepted candidate passed exactly this acceptance test, and `growRange`
returns the very expression the test evaluated. -/
theorem c1_monotonic_growth (tree : SNode) (text : List Char) (range grown : Range)
    (h : growRange tree text range = some grown) :
    grown.start ≤ range.start ∧ range.endPos ≤ grown.endPos ∧
      (grown.start < range.start ∨ range.endPos < grown.endPos) := by
  unfold growRange at h
  cases hr : rangeToNode tree text range with
  | none =>
    rw [hr] at h
    cases h
  | some node =>
    rw [hr] at h
    have hr' := hr
    unfold rangeToNode at hr'
    have hacc := List.find?_some hr'
    unfold accepts at hacc
    have heq : grown = collapseWhitespace text (nodeToRange node) := by
      injection h with h'
      exact h'.symm
    subst heq
    simp only [Bool.or_eq_true, Bool.and_eq_true, decide_eq_true_eq] at hacc
    rcases hacc with ⟨h1, h2⟩ | ⟨h1, h2⟩
    · exact ⟨by omega, by omega, by omega⟩
    · exact ⟨by omega, by omega, by omega⟩

/-- C1 witness: a single node spanning `[0, 2]` of the text `"ab"` grows the
interval `⟨0, 1⟩` to `⟨0, 2⟩`, which extends the end strictly and does not
retract the start. -/
theorem c1_monotonic_growth_witness :
    growRange (SNode.mk (.other 0) 0 2 .nil) ['a', 'b'] ⟨0, 1⟩ = some ⟨0, 2⟩ ∧
    ((⟨0, 2⟩ : Range).start ≤ (⟨0, 1⟩ : Range).start ∧
      (⟨0, 1⟩ : Range).endPos ≤ (⟨0, 2⟩ : Range).endPos ∧
      ((⟨0, 2⟩ : Range).start < (⟨0, 1⟩ : Range).start ∨
        (⟨0, 1⟩ : Range).endPos < (⟨0, 2⟩ : Range).endPos)) :=
  ⟨by decide, c1_monotonic_growth (SNode.mk (.other 0) 0 2 .nil) ['a', 'b'] ⟨0, 1⟩ ⟨0, 2⟩
    (by decide)⟩

/-- C6 counterexample: in the active code path, a template-head token (here
spanning `[0, 8]`) is mapped to the unadjusted `{fullStart, end}` interval
`⟨0, 8⟩` — the delimiter-trimming corrections are commented out there and
live only in the earlier variant, which maps the same node to `⟨2, 6⟩`.
So the claim that `nodeToRange` applies the corrections fails on the
program's active `nodeToRange`. -/
theorem c6_counterexample :
    nodeToRange (SNode.mk .templateHead 0 8 .nil) = ⟨0, 8⟩ ∧
    nodeToRangeCopy (SNode.mk .templateHead 0 8 .nil) = ⟨2, 6⟩ ∧
    (⟨0, 8⟩ : Range) ≠ ⟨2, 6⟩ := by
  decide

/-- C6 amended: the active `nodeToRange` returns `{fullStart, end}`
unadjusted for every node kind; the boundary corrections for
template-literal fragments exist only in the earlier variant
(`extension copy.ts`), whose `nodeToRange` computes, as a pure function of
the node kind (plus the literal sub-node's width in the interpolation-span
case), exactly the per-kind adjustment table `nodeToRangeTable`:
head `(+2, -2)`, tail `(+1, -1)`, middle `(+1, -2)`, span
`(-2, -literalFullWidth + 1)`, all other kinds unadjusted. -/
theorem c6_amended_boundary_adjustments (node : SNode) :
    nodeToRange node = ⟨node.fullStart, node.endPos⟩ ∧
    nodeToRangeCopy node = nodeToRangeTable node := by
  constructor
  · simp [nodeToRange]
  · cases hk : node.kind <;>
      simp [nodeToRangeCopy, nodeToRangeTable, hk, Range.mk.injEq] <;>
      omega

/-- C5 counterexample: a container whose children are a well-formed
attribute (name child spanning `[0, 3]`) followed by an attribute with no
identifiable first child.  The claim predicts the childless attribute is
skipped with no error and the other attribute still contributes (the
spec-modelled extraction indeed yields `[⟨0, 3⟩]`), but the code's
extraction aborts with a thrown `TypeError` (`undefined.getFullStart()`),
embedded as `none` — without the malformed attribute the same extraction
succeeds. -/
theorem c5_counterexample :
    extractAttrNameRanges ['a', 'b', 'c', 'd', 'e'] [exAttrGood, exAttrBad] [] = none ∧
    specAttrNameRanges ['a', 'b', 'c', 'd', 'e'] [exAttrGood, exAttrBad] = [⟨0, 3⟩] ∧
    extractAttrNameRanges ['a', 'b', 'c', 'd', 'e'] [exAttrGood] [] = some [⟨0, 3⟩] := by
  decide

/-- C5 amended: the attribute-name extraction loop skips children whose kind
is not `attribute`; when every attribute-kind child of the container has a
first child, it returns exactly one collapsed name interval per attribute,
in order (the spec-modelled list); but an attribute-kind child with no
first child makes the whole extraction throw (`undefined.getFullStart()`),
aborting with an error instead of being skipped. -/
theorem c5_amended_extraction (text : List Char) (children : List SNode) (acc : List Range) :
    (hasChildlessAttr children = false →
      extractAttrNameRanges text children acc
        = some (acc ++ specAttrNameRanges text children)) ∧
    (hasChildlessAttr children = true →
      extractAttrNameRanges text children acc = none) := by
  induction children generalizing acc with
  | nil =>
    constructor
    · intro _
      simp [extractAttrNameRanges, specAttrNameRanges]
    · intro h
      simp [hasChildlessAttr] at h
  | cons c tl ih =>
    by_cases hk : c.kind = SKind.jsxAttribute
    · cases hc : c.children.headOpt with
      | none =>
        constructor
        · intro h
          exfalso
          simp [hasChildlessAttr, hk, hc] at h
        · intro _
          simp [extractAttrNameRanges, hk, hc]
      | some ident =>
        have hstep : hasChildlessAttr (c :: tl) = hasChildlessAttr tl := by
          simp [hasChildlessAttr, hk, hc]
        constructor
        · intro h
          rw [hstep] at h
          simp only [extractAttrNameRanges, specAttrNameRanges, hk, hc]
          simp only [ne_eq, not_true_eq_false, if_false]
          rw [(ih _).1 h]
          simp
        · intro h
          rw [hstep] at h
          simp only [extractAttrNameRanges, hk, hc]
          simp only [ne_eq, not_true_eq_false, if_false]
          exact (ih _).2 h
    · have hstep : hasChildlessAttr (c :: tl) = hasChildlessAttr tl := by
        simp [hasChildlessAttr, hk]
      constructor
      · intro h
        rw [hstep] at h
        simp [extractAttrNameRanges, specAttrNameRanges, hk, (ih acc).1 h]
      · intro h
        rw [hstep] at h
        simp [extractAttrNameRanges, hk, (ih acc).2 h]

/-- C5 amended, witness: the container holding only the well-formed
attribute extracts successfully into the spec-modelled list. -/
theorem c5_amended_extraction_witness :
    extractAttrNameRanges ['a', 'b', 'c', 'd', 'e'] [exAttrGood] []
      = some ([] ++ specAttrNameRanges ['a', 'b', 'c', 'd', 'e'] [exAttrGood]) :=
  (c5_amended_extraction ['a', 'b', 'c', 'd', 'e'] [exAttrGood] []).1 (by decide)

open VerySmartSelect

theorem chainDistinct_cons₂ (a b : List Sel) (rest : List (List Sel)) :
    chainDistinct (a :: b :: rest) = (!areSelectionsEqual a b && chainDistinct (b :: rest)) :=
  rfl

theorem growMany_spec (outs : List (List Range)) :
    ∀ st : EngineState,
    (∀ o ∈ outs, o ≠ []) →
    chainDistinct (st.current :: outs.map selsOfRanges) = true →
    (∀ l, st.selectionsHistory.getLast? = some l → areSelectionsEqual l st.current = false) →
    (growMany st outs).current = (outs.map selsOfRanges).getLastD st.current ∧
    (growMany st outs).selectionsHistory
      = st.selectionsHistory ++ (st.current :: outs.map selsOfRanges).dropLast := by
  induction outs with
  | nil =>
    intro st _ _ _
    exact ⟨by simp [growMany], by simp [growMany]⟩
  | cons o rest ih =>
    intro st hne hchain hlast
    have ho : o ≠ [] := hne o (by simp)
    have hoSel : (selsOfRanges o).length > 0 := by
      simp only [selsOfRanges, List.length_map]
      exact List.length_pos.mpr ho
    have hpush : updateSelectionsHistory st st.current
        = { st with selectionsHistory := st.selectionsHistory ++ [st.current] } := by
      cases hl : st.selectionsHistory.getLast? with
      | none => simp [updateSelectionsHistory, hl]
      | some l => simp [updateSelectionsHistory, hl, hlast l hl]
    have hgrow : grow st o
        = { st with
            current := selsOfRanges o,
            selectionsHistory := st.selectionsHistory ++ [st.current],
            didUpdateSelections := true } := by
      rw [grow, if_neg (by simp [ho]), hpush, updateSelections, if_pos hoSel]
    rw [List.map_cons, chainDistinct_cons₂, Bool.and_eq_true] at hchain
    obtain ⟨hne01, hchainTl⟩ := hchain
    have hne01' : areSelectionsEqual st.current (selsOfRanges o) = false := by
      simpa using hne01
    have hihHyp3 : ∀ l, (grow st o).selectionsHistory.getLast? = some l →
        areSelectionsEqual l (grow st o).current = false := by
      intro l hl
      rw [hgrow] at hl
      simp only [List.getLast?_concat, Option.some.injEq] at hl
      subst hl
      rw [hgrow]
      exact hne01'
    have hrec := ih (grow st o) (fun o' h' => hne o' (by simp [h']))
      (by rw [hgrow]; exact hchainTl) hihHyp3
    have hfold : growMany st (o :: rest) = growMany (grow st o) rest := by
      simp [growMany]
    constructor
    · rw [hfold, hrec.1, hgrow, List.map_cons, List.getLastD_cons]
    · rw [hfold, hrec.2, hgrow]
      simp only [List.map_cons, List.dropLast_cons₂, List.append_assoc, List.cons_append,
        List.nil_append]

theorem headD_concat (H : List (List Sel)) (a : List Sel) (d : List Sel) :
    (H ++ [a]).headD d = H.headD a := by
  cases H <;> simp

theorem shrinkMany_spec (H : List (List Sel)) :
    ∀ st : EngineState, st.selectionsHistory = H → (∀ s ∈ H, s ≠ []) →
    (shrinkMany st H.length).1.current = H.headD st.current ∧
    (shrinkMany st H.length).1.selectionsHistory = [] ∧
    (shrinkMany st H.length).2 = H.reverse.map some := by
  induction H using List.reverseRecOn with
  | nil =>
    intro st hst _
    refine ⟨rfl, ?_, rfl⟩
    simpa [shrinkMany] using hst
  | append_singleton H' a ih =>
    intro st hst hne
    have ha : a ≠ [] := hne a (by simp)
    have haLen : a.length > 0 := List.length_pos.mpr ha
    have hshr : shrink st
        = ({ st with
             selectionsHistory := H',
             current := a,
             didUpdateSelections := true }, some a) := by
      simp [shrink, hst, List.getLast?_concat, List.dropLast_concat, updateSelections, haLen]
    have hrec := ih ({ st with
        selectionsHistory := H',
        current := a,
        didUpdateSelections := true }) rfl (fun s hs => hne s (by simp [hs]))
    have hlen : (H' ++ [a]).length = H'.length + 1 := by simp
    rw [hlen, shrinkMany, hshr]
    refine ⟨?_, ?_, ?_⟩
    · rw [hrec.1, headD_concat]
    · exact hrec.2.1
    · rw [hrec.2.2]
      simp

/-- C3 counterexample: start from the selection set `[⟨0, 1⟩]` with empty
history and perform two successful grows whose computed ranges are both
`[⟨0, 1⟩]` (a grow that reproduces the current selections — e.g. growing
from attribute-name selections fans out to the same attribute names).  Both
grows are successful (nonempty output), but `updateSelectionsHistory`
deduplicates against the stack top, so only one entry is pushed: the first
shrink reapplies it and the second shrink finds the stack empty and defers
to host-native shrink (`none`) instead of reapplying the set that was
current before the first grow.  So `n` grows followed by `n` shrinks does
not restore the original set via the history. -/
theorem c3_counterexample :
    (∀ o ∈ [[(⟨0, 1⟩ : Range)], [⟨0, 1⟩]], o ≠ []) ∧
    (shrinkMany (growMany ⟨[⟨0, 1⟩], [], false⟩ [[⟨0, 1⟩], [⟨0, 1⟩]]) 2).2
      = [some [⟨0, 1⟩], none] := by
  decide

/-- C3 amended: starting from an empty history stack and a nonempty
selection set, `n` successful grows **each of which changes the selection
set** (consecutive selection sets differ under `areSelectionsEqual`, so the
history deduplication never skips a push) followed by `n` shrinks restores
exactly the original selection set — same anchor/active pairs in the same
order — with each shrink reapplying (never deferring to host-native
shrink) the selection set that was current immediately before the
corresponding grow, in reverse order of the grows. -/
theorem c3_amended_grow_shrink_symmetry (st : EngineState) (outs : List (List Range))
    (hh : st.selectionsHistory = [])
    (hcur : st.current ≠ [])
    (hne : ∀ o ∈ outs, o ≠ [])
    (hchain : chainDistinct (st.current :: outs.map selsOfRanges) = true) :
    (shrinkMany (growMany st outs) outs.length).1.current = st.current ∧
    (shrinkMany (growMany st outs) outs.length).1.selectionsHistory = [] ∧
    (shrinkMany (growMany st outs) outs.length).2
      = ((st.current :: outs.map selsOfRanges).dropLast).reverse.map some := by
  have hg := growMany_spec outs st hne hchain (by rw [hh]; intro l hl; simp at hl)
  have hGhist : (growMany st outs).selectionsHistory
      = (st.current :: outs.map selsOfRanges).dropLast := by
    rw [hg.2, hh, List.nil_append]
  have hHlen : ((st.current :: outs.map selsOfRanges).dropLast).length = outs.length := by
    simp
  have hHne : ∀ s ∈ (st.current :: outs.map selsOfRanges).dropLast, s ≠ [] := by
    intro s hs
    have hmem := List.dropLast_subset _ hs
    rcases List.mem_cons.mp hmem with h0 | hm
    · rw [h0]
      exact hcur
    · obtain ⟨o, hoin, rfl⟩ := List.mem_map.mp hm
      intro hnil
      exact hne o hoin (by simpa [selsOfRanges, List.map_eq_nil_iff] using hnil)
  have hs := shrinkMany_spec ((st.current :: outs.map selsOfRanges).dropLast)
    (growMany st outs) hGhist hHne
  rw [hHlen] at hs
  refine ⟨?_, hs.2.1, hs.2.2⟩
  rw [hs.1]
  cases houts : outs.map selsOfRanges with
  | nil =>
    simp only [List.dropLast_single, List.headD_nil]
    rw [hg.1, houts]
    rfl
  | cons b L =>
    simp

/-- C3 amended, witness: one grow from `[⟨0, 1⟩]` to the distinct set
`[⟨0, 2⟩]`, then one shrink, restores the original selection set with the
shrink reapplying the recorded pre-grow set. -/
theorem c3_amended_grow_shrink_symmetry_witness :
    (shrinkMany (growMany ⟨[⟨0, 1⟩], [], false⟩ [[⟨0, 2⟩]]) 1).1.current = [⟨0, 1⟩] ∧
    (shrinkMany (growMany ⟨[⟨0, 1⟩], [], false⟩ [[⟨0, 2⟩]]) 1).1.selectionsHistory = [] ∧
    (shrinkMany (growMany ⟨[⟨0, 1⟩], [], false⟩ [[⟨0, 2⟩]]) 1).2
      = ((([⟨0, 1⟩] : List Sel) :: ([[(⟨0, 2⟩ : Range)]].map selsOfRanges)).dropLast).reverse.map
          some :=
  c3_amended_grow_shrink_symmetry ⟨[⟨0, 1⟩], [], false⟩ [[⟨0, 2⟩]] rfl (by decide)
    (by decide) (by decide)

theorem shrinkMany_of_empty_history (st : EngineState)
    (h : st.selectionsHistory = []) (n : Nat) :
    shrinkMany st n = (st, List.replicate n none) := by
  induction n with
  | zero => simp [shrinkMany]
  | succ n ih =>
    have hshr : shrink st = (st, none) := by
      simp [shrink, h]
    simp [shrinkMany, hshr, ih, List.replicate_succ]

/-- C8: the selection-change listener distinguishes the engine's own apply
by the one-shot flag.  An event with the flag clear (externally originated)
clears the entire history stack, so every shrink issued afterwards — before
any further grow — pops nothing and defers to host-native shrink, never
reapplying a stale pre-change entry.  An event with the flag set (caused by
the engine's own `updateSelections`) leaves the stack and the current
selections untouched and only clears the flag. -/
theorem c8_history_invalidation (st : EngineState) :
    (st.didUpdateSelections = false →
      (selectionListener st).selectionsHistory = [] ∧
      ∀ n : Nat, (shrinkMany (selectionListener st) n).2 = List.replicate n none) ∧
    (st.didUpdateSelections = true →
      (selectionListener st).selectionsHistory = st.selectionsHistory ∧
      (selectionListener st).current = st.current ∧
      (selectionListener st).didUpdateSelections = false) := by
  constructor
  · intro h
    have hcl : (selectionListener st).selectionsHistory = [] := by
      simp [selectionListener, h]
    exact ⟨hcl, fun n => by rw [shrinkMany_of_empty_history _ hcl n]⟩
  · intro h
    simp [selectionListener, h]

/-- C8 witness: an external event (flag clear) on a state with one history
entry clears the stack and two subsequent shrinks both defer to host-native
shrink; the engine's own event (flag set) on the same state preserves the
stack. -/
theorem c8_history_invalidation_witness :
    (selectionListener ⟨[⟨0, 1⟩], [[⟨2, 3⟩]], false⟩).selectionsHistory = [] ∧
    (shrinkMany (selectionListener ⟨[⟨0, 1⟩], [[⟨2, 3⟩]], false⟩) 2).2
      = List.replicate 2 none ∧
    (selectionListener ⟨[⟨0, 1⟩], [[⟨2, 3⟩]], true⟩).selectionsHistory = [[⟨2, 3⟩]] :=
  ⟨((c8_history_invalidation ⟨[⟨0, 1⟩], [[⟨2, 3⟩]], false⟩).1 rfl).1,
    ((c8_history_invalidation ⟨[⟨0, 1⟩], [[⟨2, 3⟩]], false⟩).1 rfl).2 2,
    ((c8_history_invalidation ⟨[⟨0, 1⟩], [[⟨2, 3⟩]], true⟩).2 rfl).1⟩
